import Mathlib

/-!
Verification development for the BiTB RAG ingestion subsystem.

Shallow embedding of:
  * `split_text_to_chunks` (services/llamaindex_service/app/chunking.py)
  * `TextChunker.chunk_text` (python/ingest_worker.py)
  * `EmbeddingProvider.get_batch_embeddings` and `_hash_key`
    (services/llamaindex_service/app/embeddings.py)
  * `FAISSVectorStore.search` (python/ingest-worker.py) and
    `ChromaVectorStore.search` (services/llamaindex_service/app/vector_store.py)
  * `purge_expired_trials` (python/ingest-worker.py)
  * the re-embed backfill loop (python/reembed_runner.py)
  * `WebCrawler.crawl` (python/ingest-worker.py) and
    `WebsiteCrawler.crawl` (python/ingest_worker.py)

Python strings are modelled as `String` or `List Char`, machine floats of the
scoring arithmetic as `ℚ`, the opaque embedding backend as a function
`String → List ℚ`, and the filesystem / HTTP collaborators as explicit state.
-/

/-! ## Chunker: `split_text_to_chunks` (chunking.py)

The Python loop:
```
if not text: return []
if chunk_size <= 0: raise ValueError
if overlap >= chunk_size: overlap = int(chunk_size / 10)
chunks = []; start = 0
while start < len(text):
    end = start + chunk_size
    chunks.append((text[start:end], start))
    if end >= len(text): break
    start = max(0, end - overlap)
```
`text[start:end]` is the clamped slice `(text.drop start).take chunk_size`;
`max 0 (end - overlap)` is truncated subtraction on naturals.  The loop runs at
most `text.length` iterations (each appended offset is strictly larger than the
previous one and stays below `text.length`), so fuel `text.length` is enough;
the characterization theorem below never exhausts it. -/

def splitGo (text : List Char) (chunkSize overlap : Nat) : Nat → Nat → List (List Char × Nat)
  | 0, _ => []
  | fuel + 1, start =>
    if start < text.length then
      let chunk := (text.drop start).take chunkSize
      if start + chunkSize ≥ text.length then
        [(chunk, start)]
      else
        (chunk, start) :: splitGo text chunkSize overlap fuel (start + chunkSize - overlap)
    else []

def split_text_to_chunks (text : List Char) (chunkSize overlap : Nat) :
    Except String (List (List Char × Nat)) :=
  if text = [] then .ok []
  else if chunkSize = 0 then .error "chunk_size must be > 0"
  else
    let ov := if overlap ≥ chunkSize then chunkSize / 10 else overlap
    .ok (splitGo text chunkSize ov text.length 0)

/-! ## Chunker: `TextChunker.chunk_text` (python/ingest_worker.py)

The Python code:
```
words = text.split()
chunks = []
for i in range(0, len(words), self.chunk_size - self.overlap):
    chunk_words = words[i:i + self.chunk_size]
    if len(chunk_words) < 50:  # Skip very small chunks
        continue
    chunks.append({..., 'chunk_index': len(chunks)})
return chunks
```
There is no clamping of the overlap here: with `overlap == chunk_size` the
`range` step is `0` and Python raises `ValueError: range() arg 3 must not be
zero`; with `overlap > chunk_size` the step is negative and
`range(0, n, step)` is empty, so no chunk is produced.  `text.split()` splits
on whitespace runs and drops empty pieces; each word is a `List Char`. -/

structure WorkerChunk where
  words : List (List Char)
  offset : Nat
  chunkIndex : Nat
deriving DecidableEq, Repr

def splitWsGo : List Char → List Char → List (List Char)
  | [], cur => if cur = [] then [] else [cur.reverse]
  | c :: rest, cur =>
    if c.isWhitespace then
      if cur = [] then splitWsGo rest [] else cur.reverse :: splitWsGo rest []
    else splitWsGo rest (c :: cur)

def pySplit (text : String) : List (List Char) := splitWsGo text.data []

def chunkWGo (words : List (List Char)) (chunkSize step : Nat) :
    Nat → Nat → Nat → List WorkerChunk
  | 0, _, _ => []
  | fuel + 1, i, idx =>
    if i < words.length then
      let cw := (words.drop i).take chunkSize
      if cw.length < 50 then chunkWGo words chunkSize step fuel (i + step) idx
      else ⟨cw, i, idx⟩ :: chunkWGo words chunkSize step fuel (i + step) (idx + 1)
    else []

def TextChunker.chunk_text (text : String) (chunkSize overlap : Nat) :
    Except String (List WorkerChunk) :=
  let words := pySplit text
  if chunkSize = overlap then .error "range() arg 3 must not be zero"
  else if chunkSize < overlap then .ok []
  else .ok (chunkWGo words chunkSize (chunkSize - overlap) (words.length + 1) 0 0)

/-! ## Embedding provider (services/llamaindex_service/app/embeddings.py)

`EmbeddingProvider._hash_key` hashes
`provider.encode() + (model or "").encode() + b"\x00" + text.encode()` with
SHA-256 and prepends `"emb:"`.  We model the digest input byte string exactly
(UTF-8), and keep the digest itself abstract: equal inputs always give equal
digests, so equal inputs give equal cache keys for the real SHA-256 as well. -/

def charUtf8 (c : Char) : List Nat :=
  let n := c.toNat
  if n < 128 then [n]
  else if n < 2048 then [192 + n / 64, 128 + n % 64]
  else if n < 65536 then [224 + n / 4096, 128 + (n / 64) % 64, 128 + n % 64]
  else [240 + n / 262144, 128 + (n / 4096) % 64, 128 + (n / 64) % 64, 128 + n % 64]

def utf8Bytes (s : String) : List Nat := s.data.flatMap charUtf8

def hashKeyInput (text model provider : String) : List Nat :=
  utf8Bytes provider ++ utf8Bytes model ++ [0] ++ utf8Bytes text

def hash_key (digest : List Nat → String) (text model provider : String) : String :=
  "emb:" ++ digest (hashKeyInput text model provider)

/-! ### `EmbeddingProvider.get_batch_embeddings`

The Python method (embeddings.py, lines 152-213):
```
if not texts: return []
prov = (provider or os.getenv(...)).lower()
uniq_map = {}; uniq_texts = []; indices = []
for t in texts:
    if t not in uniq_map:
        uniq_map[t] = len(uniq_texts); uniq_texts.append(t)
    indices.append(uniq_map[t])
results_by_uniq = [None] * len(uniq_texts)
for i, t in enumerate(uniq_texts):
    cached = _get_cached(_hash_key(t, model, prov))
    if cached is not None: results_by_uniq[i] = cached
missing = [uniq_texts[i] for i where results_by_uniq[i] is None]
for each batch of `batch_size` consecutive missing texts:
    embs = backend(batch)
    assign them back into results_by_uniq and write through to the cache
return [results_by_uniq[idx] for idx in indices]
```
`uniq_map[t]` is the position of the first occurrence of `t` in `uniq_texts`,
i.e. `(dedupFirst texts).indexOf t`.  The cache getter and the embedding
backend are opaque collaborators; the run records the backend invocations
(`calls`, one list per invocation) and the write-through cache writes. -/

def pyLower (s : String) : String := ⟨s.data.map Char.toLower⟩

def dedupFirst (l : List String) : List String :=
  l.foldl (fun acc t => if t ∈ acc then acc else acc ++ [t]) []

def toBatchesGo {α : Type} (bs : Nat) : Nat → List α → List (List α)
  | _, [] => []
  | 0, _ :: _ => []
  | f + 1, a :: l => ((a :: l).take bs) :: toBatchesGo bs f ((a :: l).drop bs)

def toBatches {α : Type} (bs : Nat) (l : List α) : List (List α) :=
  toBatchesGo bs l.length l

def fill : List (Option (List ℚ)) → List (List ℚ) → List (List ℚ)
  | [], _ => []
  | some v :: rest, es => v :: fill rest es
  | none :: rest, e :: es => e :: fill rest es
  | none :: rest, [] => fill rest []

structure EmbedRun where
  result : List (List ℚ)
  calls : List (List String)
  writes : List (String × List ℚ)
deriving DecidableEq, Repr

def EmbeddingProvider.get_batch_embeddings (cacheGet : String → Option (List ℚ))
    (digest : List Nat → String) (backend : String → List ℚ)
    (provider model : String) (batchSize : Nat) (texts : List String) : EmbedRun :=
  if texts = [] then ⟨[], [], []⟩
  else
    let prov := pyLower provider
    let key := fun t => hash_key digest t model prov
    let uniq := dedupFirst texts
    let indices := texts.map (fun t => uniq.indexOf t)
    let cachedRes : List (Option (List ℚ)) := uniq.map (fun t => cacheGet (key t))
    let missing := (uniq.zip cachedRes).filterMap
      (fun p => if p.2.isNone then some p.1 else none)
    let batches := toBatches batchSize missing
    let embs := (batches.map (fun b => b.map backend)).flatten
    let filled := fill cachedRes embs
    ⟨indices.map (fun i => filled.getD i []), batches,
      missing.map (fun t => (key t, backend t))⟩

/-! ## Vector search

`FAISSVectorStore.search` (python/ingest-worker.py, lines 403-417):
```
distances, indices = self.index.search(query.reshape(1, -1), k)
results = []
for dist, idx in zip(distances[0], indices[0]):
    if idx < len(self.chunks):
        result = self.chunks[idx].copy()
        result['score'] = float(1 / (1 + dist))
        results.append(result)
return results
```
`self.index` is a `faiss.IndexFlatL2`.  For `k` larger than the number of
stored vectors, FAISS pads the result rows with label `-1` and distance
`FLT_MAX`; otherwise labels are the indices of the `k` nearest vectors in
ascending squared-L2 order.  `self.chunks[idx]` uses Python list indexing:
negative indices count from the end, and an index out of `[-len, len)` raises
`IndexError`. -/

def pyIndex {α : Type} (l : List α) (i : Int) : Option α :=
  let j : Int := if i < 0 then i + l.length else i
  if 0 ≤ j ∧ j < l.length then l.get? j.toNat else none

def l2sq (q v : List ℚ) : ℚ := ((q.zip v).map (fun p => (p.1 - p.2) ^ 2)).sum

def fltMax : ℚ := 340282346638528859811704183484516925440

def insertBy {α : Type} (le : α → α → Bool) (a : α) : List α → List α
  | [] => [a]
  | b :: l => if le a b then a :: b :: l else b :: insertBy le a l

def sortBy {α : Type} (le : α → α → Bool) (l : List α) : List α :=
  l.foldr (insertBy le) []

def faissNative (vectors : List (List ℚ)) (q : List ℚ) (k : Nat) : List (ℚ × Int) :=
  let scored := vectors.enum.map (fun p => (l2sq q p.2, (p.1 : Int)))
  let sorted := sortBy
    (fun a b => decide (a.1 < b.1) || (decide (a.1 = b.1) && decide (a.2 ≤ b.2))) scored
  sorted.take k ++ List.replicate (k - vectors.length) (fltMax, -1)

def FAISSVectorStore.search {α : Type} (chunks : List α) :
    List (ℚ × Int) → Except String (List (α × ℚ))
  | [] => .ok []
  | (dist, idx) :: rest =>
    if idx < (chunks.length : Int) then
      match pyIndex chunks idx with
      | none => .error "IndexError: list index out of range"
      | some c =>
        match FAISSVectorStore.search chunks rest with
        | .error e => .error e
        | .ok rs => .ok ((c, 1 / (1 + dist)) :: rs)
    else FAISSVectorStore.search chunks rest

def faissSearchPipeline {α : Type} (vectors : List (List ℚ)) (chunks : List α)
    (q : List ℚ) (k : Nat) : Except String (List (α × ℚ)) :=
  FAISSVectorStore.search chunks (faissNative vectors q k)

/-! ### `ChromaVectorStore.search` (vector_store.py, lines 84-105)

```
results = col.query(query_embeddings=[emb], n_results=k, include=[...])
hits = []
for idx, doc in enumerate(results.get("documents", [[]])[0]):
    hit = {"id": ids[idx], "score": distances[idx], "document": doc, ...}
    hits.append(hit)
```
The `score` field is the raw Chroma distance for that row; no conversion is
applied.  Chroma returns the parallel lists `ids`, `documents`, `distances`
with one entry per hit. -/

structure ChromaHit where
  id : String
  score : ℚ
  document : String
deriving DecidableEq, Repr

def ChromaVectorStore.search (ids : List String) (docs : List String)
    (dists : List ℚ) : List ChromaHit :=
  (List.range docs.length).map
    (fun idx => ⟨ids.getD idx "", dists.getD idx 0, docs.getD idx ""⟩)

/-! ## Expiry purge: `purge_expired_trials` (python/ingest-worker.py, lines 598-623)

```
purged = 0
for metadata_file in faiss_dir.glob("*.json"):
    metadata = json.load(metadata_file)
    expires_at = fromisoformat(metadata['expires_at'])
    if datetime.now() > expires_at:
        trial_token = metadata['trial_token']
        (faiss_dir / f"{trial_token}.index").unlink(missing_ok=True)
        metadata_file.unlink()
        purged += 1
return purged
```
The store is modelled as the list of metadata records `(trial_token,
expires_at)` (one per sidecar file) plus the list of trial tokens that have an
`.index` artifact.  Timestamps are integers. -/

structure TrialStore where
  metas : List (String × Int)
  indexes : List String
deriving DecidableEq, Repr

def purgeGo (now : Int) : List (String × Int) → List String →
    List (String × Int) × List String × Nat
  | [], indexes => ([], indexes, 0)
  | (t, e) :: rest, indexes =>
    if now > e then
      let r := purgeGo now rest (indexes.filter (fun x => x ≠ t))
      (r.1, r.2.1, r.2.2 + 1)
    else
      let r := purgeGo now rest indexes
      ((t, e) :: r.1, r.2.1, r.2.2)

def purge_expired_trials (now : Int) (s : TrialStore) : TrialStore × Nat :=
  let r := purgeGo now s.metas s.indexes
  (⟨r.1, r.2.1⟩, r.2.2)

/-! ## Backfill runner (python/reembed_runner.py)

`save_checkpoint` writes the JSON to `path + '.tmp'` and then atomically
renames it over `path` (`os.replace`).  The main loop fetches rows with
`id > last_id` (ascending, `limit batch_size`), embeds them, upserts the
batch, then advances the in-memory checkpoint to `ids[-1]` and saves it.
The run is modelled as the trace of externally visible events; `db` is the
ascending list of ids of rows missing `embedding_768`. -/

inductive RunnerEv where
  | fetch (ids : List Nat)
  | embed (ids : List Nat)
  | upsert (ids : List Nat)
  | writeTmp (checkpoint : Nat)
  | rename
deriving DecidableEq, Repr

def save_checkpoint (checkpoint : Nat) : List RunnerEv :=
  [.writeTmp checkpoint, .rename]

def fetch_batch (db : List Nat) (lastId : Option Nat) (batchSize : Nat) : List Nat :=
  (db.filter (fun id => match lastId with | some c => c < id | none => True)).take batchSize

def runnerGo (db : List Nat) (batchSize : Nat) : Nat → Option Nat → List RunnerEv
  | 0, _ => []
  | fuel + 1, lastId =>
    match fetch_batch db lastId batchSize with
    | [] => []
    | b :: bs =>
      let batch := b :: bs
      let newLast := batch.getLastD 0
      .fetch batch :: .embed batch :: .upsert batch :: save_checkpoint newLast
        ++ runnerGo db batchSize fuel (some newLast)

def reembedRun (db : List Nat) (batchSize : Nat) (checkpoint : Option Nat) : List RunnerEv :=
  runnerGo db batchSize (db.length + 1) checkpoint

/-! ## Crawlers

A fetched page is its extracted text plus the outbound links that the link
extraction yields for it; `web url = none` models a network failure, a
non-200 response, or a non-HTML content type.  The `allow` predicate is the
robots.txt `can_fetch` check and `sameDomain` the netloc comparison; both are
opaque collaborators.  The loops are run on fuel: `some` means the `while`
loop exited by its own condition within `fuel` iterations. -/

structure FetchedPage where
  text : String
  links : List String

/-! ### `WebCrawler.crawl` (python/ingest-worker.py, lines 206-261)

```
queue = deque([(self.start_url, 0)]); pages = []
while queue:
    url, depth = queue.popleft()
    if depth > self.max_depth: continue
    if url in self.visited: continue
    if urlparse(url).netloc != self.base_domain: continue
    if not self.can_fetch(url): continue
    try:
        response = requests.get(url, ...); response.raise_for_status()
        if 'text/html' not in content_type: continue
        text = TextExtractor.from_html(response.text)
        if text.strip(): pages.append({'url', 'text', 'depth'})
        self.visited.add(url)
        if depth < self.max_depth:
            for link in links:
                if link not in self.visited: queue.append((link, depth + 1))
    except Exception: pass
return pages
```
There is no `max_pages` check anywhere in this loop, and the surrounding
`IngestionPipeline._crawl_website` reads only `crawl_depth` from the data
source, never `max_pages`. -/

def WebCrawler.crawlGo (web : String → Option FetchedPage)
    (sameDomain allow : String → Bool) (maxDepth : Nat) :
    Nat → List (String × Nat) → List String → List (String × String × Nat) →
    Option (List (String × String × Nat))
  | _, [], _, pages => some pages
  | 0, _ :: _, _, _ => none
  | fuel + 1, (url, depth) :: rest, visited, pages =>
    if depth > maxDepth then WebCrawler.crawlGo web sameDomain allow maxDepth fuel rest visited pages
    else if url ∈ visited then WebCrawler.crawlGo web sameDomain allow maxDepth fuel rest visited pages
    else if ¬ sameDomain url then WebCrawler.crawlGo web sameDomain allow maxDepth fuel rest visited pages
    else if ¬ allow url then WebCrawler.crawlGo web sameDomain allow maxDepth fuel rest visited pages
    else
      match web url with
      | none => WebCrawler.crawlGo web sameDomain allow maxDepth fuel rest visited pages
      | some f =>
        let pages' := if f.text.data.any (fun c => ¬ c.isWhitespace)
          then pages ++ [(url, f.text, depth)] else pages
        let visited' := url :: visited
        let rest' := if depth < maxDepth
          then rest ++ (f.links.filter (fun l => ¬ l ∈ visited')).map (fun l => (l, depth + 1))
          else rest
        WebCrawler.crawlGo web sameDomain allow maxDepth fuel rest' visited' pages'

def WebCrawler.crawl (web : String → Option FetchedPage)
    (sameDomain allow : String → Bool) (startUrl : String) (maxDepth fuel : Nat) :
    Option (List (String × String × Nat)) :=
  WebCrawler.crawlGo web sameDomain allow maxDepth fuel [(startUrl, 0)] [] []

/-! ### `WebsiteCrawler.crawl` (python/ingest_worker.py, lines 151-207)

```
to_visit = [(self.base_url, 0)]; crawled_pages = []
while to_visit and len(crawled_pages) < self.max_pages:
    url, depth = to_visit.pop(0)
    if url in self.visited or depth > self.max_depth: continue
    if not self.can_fetch(url): continue
    self.visited.add(url)
    try:
        response = requests.get(url, ...)
        if response.status_code != 200: continue
        text = self.extract_text(response.text)
        if text and len(text) > 100: crawled_pages.append({...})
        if depth < self.max_depth:
            for link in self.extract_links(html, url):
                if link not in self.visited: to_visit.append((link, depth + 1))
        time.sleep(0.5)
    except Exception: continue
return crawled_pages
```
The model also returns the remaining frontier so that the loop exit condition
is observable.  Crawled pages are recorded by url. -/

def WebsiteCrawler.crawlGo (web : String → Option FetchedPage) (allow : String → Bool)
    (maxDepth maxPages : Nat) :
    Nat → List (String × Nat) → List String → List String →
    Option (List String × List (String × Nat))
  | fuel, frontier, visited, pages =>
    match frontier with
    | [] => some (pages, [])
    | (url, depth) :: rest =>
      if maxPages ≤ pages.length then some (pages, (url, depth) :: rest)
      else
        match fuel with
        | 0 => none
        | fuel + 1 =>
          if url ∈ visited ∨ depth > maxDepth then
            WebsiteCrawler.crawlGo web allow maxDepth maxPages fuel rest visited pages
          else if ¬ allow url then
            WebsiteCrawler.crawlGo web allow maxDepth maxPages fuel rest visited pages
          else
            let visited' := url :: visited
            match web url with
            | none => WebsiteCrawler.crawlGo web allow maxDepth maxPages fuel rest visited' pages
            | some f =>
              let pages' := if 100 < f.text.length then pages ++ [url] else pages
              let rest' := if depth < maxDepth
                then rest ++ (f.links.filter (fun l => ¬ l ∈ visited')).map (fun l => (l, depth + 1))
                else rest
              WebsiteCrawler.crawlGo web allow maxDepth maxPages fuel rest' visited' pages'

def WebsiteCrawler.crawl (web : String → Option FetchedPage) (allow : String → Bool)
    (baseUrl : String) (maxDepth maxPages fuel : Nat) :
    Option (List String × List (String × Nat)) :=
  WebsiteCrawler.crawlGo web allow maxDepth maxPages fuel [(baseUrl, 0)] [] []

/-- Links that the v2 crawler can push for a url: the extracted links when
the fetch succeeds, nothing otherwise. -/
def webLinks (web : String → Option FetchedPage) (u : String) : List String :=
  match web u with
  | some f => f.links
  | none => []

/-- Termination measure helper for the v2 crawl loop: each url of the finite
url universe `U` not yet visited contributes one pop plus one potential push
per outbound link. -/
def crawlWeight (web : String → Option FetchedPage) (U visited : List String) : Nat :=
  ((U.filter (fun u => ¬ u ∈ visited)).map (fun u => 1 + (webLinks web u).length)).sum

/-- A three-page site for concrete crawl runs: page "a" links to "b" and "c",
which are leaves; every page has non-trivial text of more than 100
characters. -/
def exSite : String → Option FetchedPage := fun u =>
  if u = "a" then some ⟨String.mk (List.replicate 101 'x'), ["b", "c"]⟩
  else if u = "b" then some ⟨String.mk (List.replicate 101 'y'), []⟩
  else if u = "c" then some ⟨String.mk (List.replicate 101 'z'), []⟩
  else none

/-! ## Theorems -/

theorem getLast?_cons_of_ne_nil {α : Type} (a : α) (l : List α) (h : l ≠ []) :
    (a :: l).getLast? = l.getLast? := by
  cases l with
  | nil => simp at h
  | cons b t => simp [List.getLast?_cons_cons]

theorem splitGo_spec (text : List Char) (cs ov : Nat) (hov : ov < cs) :
    ∀ fuel start, start < text.length → text.length - start ≤ fuel →
      splitGo text cs ov fuel start ≠ [] ∧
      (splitGo text cs ov fuel start).head?.map Prod.snd = some start ∧
      (∀ p ∈ splitGo text cs ov fuel start, p.1 = (text.drop p.2).take cs) ∧
      (splitGo text cs ov fuel start).Chain' (fun a b => b.2 = a.2 + (cs - ov)) ∧
      (∃ q, (splitGo text cs ov fuel start).getLast? = some q ∧
        q.2 + q.1.length = text.length) := by
  intro fuel
  induction fuel with
  | zero => intro start h1 h2; omega
  | succ fuel ih =>
    intro start h1 h2
    by_cases hend : start + cs ≥ text.length
    · have hres : splitGo text cs ov (fuel + 1) start =
          [((text.drop start).take cs, start)] := by
        simp [splitGo, h1, hend]
      rw [hres]
      refine ⟨by simp, by simp, ?_, by simp, ?_⟩
      · intro p hp; simp at hp; simp [hp]
      · refine ⟨((text.drop start).take cs, start), by simp, ?_⟩
        simp only [List.length_take, List.length_drop]
        omega
    · have hstep : 0 < cs - ov := by omega
      set start' := start + cs - ov with hstart'
      have h1' : start' < text.length := by omega
      have h2' : text.length - start' ≤ fuel := by omega
      obtain ⟨ihne, ihhead, ihmem, ihchain, q, ihlast, ihqlen⟩ := ih start' h1' h2'
      have hres : splitGo text cs ov (fuel + 1) start =
          ((text.drop start).take cs, start) :: splitGo text cs ov fuel start' := by
        simp [splitGo, h1, hend, hstart']
      rw [hres]
      refine ⟨by simp, by simp, ?_, ?_, ?_⟩
      · intro p hp
        rcases List.mem_cons.mp hp with h | h
        · simp [h]
        · exact ihmem p h
      · rw [List.chain'_cons']
        refine ⟨?_, ihchain⟩
        intro b hb
        rcases hhead : (splitGo text cs ov fuel start').head? with _ | c
        · rw [hhead] at hb; simp at hb
        · rw [hhead] at hb
          simp at hb
          subst hb
          rw [hhead] at ihhead
          simp at ihhead
          simp [ihhead]
          omega
      · refine ⟨q, ?_, ihqlen⟩
        rw [getLast?_cons_of_ne_nil _ _ ihne]
        exact ihlast

/-- C10: for every non-empty text, chunkSize > 0 and 0 ≤ overlap < chunkSize,
`split_text_to_chunks` succeeds with a non-empty chunk list in which every
pair is the clamped slice `text[offset : offset + chunkSize]`, the first
offset is 0, consecutive offsets increase by exactly `chunkSize - overlap`,
and the final chunk ends exactly at `len(text)` — so the chunks cover the
whole input. -/
theorem c10_split_text_covers (text : List Char) (cs ov : Nat)
    (htext : text ≠ []) (hcs : 0 < cs) (hov : ov < cs) :
    ∃ chunks, split_text_to_chunks text cs ov = .ok chunks ∧
      chunks ≠ [] ∧
      chunks.head?.map Prod.snd = some 0 ∧
      (∀ p ∈ chunks, p.1 = (text.drop p.2).take cs) ∧
      chunks.Chain' (fun a b => b.2 = a.2 + (cs - ov)) ∧
      ∃ q, chunks.getLast? = some q ∧ q.2 + q.1.length = text.length := by
  have hlen : 0 < text.length := List.length_pos.mpr htext
  have hspec := splitGo_spec text cs ov hov text.length 0 hlen (by omega)
  refine ⟨splitGo text cs ov text.length 0, ?_, hspec.1, hspec.2.1, hspec.2.2.1,
    hspec.2.2.2.1, hspec.2.2.2.2⟩
  have hcs' : cs ≠ 0 := by omega
  have hov' : ¬ cs ≤ ov := by omega
  simp [split_text_to_chunks, htext, hcs', hov']

/-- C10 witness: the theorem instantiated at text "abcde", chunkSize 2,
overlap 1. -/
theorem c10_split_text_covers_witness :
    ("abcde".toList ≠ [] ∧ 0 < 2 ∧ 1 < 2) ∧
    (∃ chunks, split_text_to_chunks "abcde".toList 2 1 = .ok chunks ∧
      chunks ≠ [] ∧
      chunks.head?.map Prod.snd = some 0 ∧
      (∀ p ∈ chunks, p.1 = ("abcde".toList.drop p.2).take 2) ∧
      chunks.Chain' (fun a b => b.2 = a.2 + (2 - 1)) ∧
      ∃ q, chunks.getLast? = some q ∧ q.2 + q.1.length = "abcde".toList.length) :=
  ⟨⟨by decide, by decide, by decide⟩,
    c10_split_text_covers "abcde".toList 2 1 (by decide) (by decide) (by decide)⟩

/-- C4 counterexample: the claim says that for every chunkSize > 0 and every
overlap ≥ chunkSize the chunking function does not fail.  The worker chunker
`TextChunker.chunk_text` (python/ingest_worker.py) applies no clamp: with
chunkSize = overlap = 2 the Python `range` step is zero and the call raises
`ValueError`, so the chunking function does fail. -/
theorem c4_worker_chunker_raises :
    TextChunker.chunk_text "a b c" 2 2 = .error "range() arg 3 must not be zero" ∧
    (0 : Nat) < 2 ∧ (2 : Nat) ≥ 2 := ⟨rfl, by decide, by decide⟩

/-- C4 amended: for `split_text_to_chunks` (chunking.py) only — for every
text, chunkSize > 0 and overlap ≥ chunkSize, the call does not fail, the
overlap is clamped to chunkSize / 10, and the result equals the chunk list of
a direct call with the clamped overlap.  The worker `TextChunker.chunk_text`
variants have no clamp: overlap = chunkSize raises ValueError and
overlap > chunkSize silently produces no chunks. -/
theorem c4_split_clamps_overlap (text : List Char) (cs ov : Nat)
    (hcs : 0 < cs) (hov : cs ≤ ov) :
    split_text_to_chunks text cs ov = split_text_to_chunks text cs (cs / 10) ∧
    ∃ chunks, split_text_to_chunks text cs ov = .ok chunks := by
  have hclamp : cs / 10 < cs := Nat.div_lt_self hcs (by norm_num)
  have hcs' : cs ≠ 0 := by omega
  by_cases htext : text = []
  · subst htext
    exact ⟨rfl, [], rfl⟩
  · constructor
    · simp [split_text_to_chunks, htext, hcs', hov, Nat.not_le.mpr hclamp]
    · refine ⟨splitGo text cs (cs / 10) text.length 0, ?_⟩
      simp [split_text_to_chunks, htext, hcs', hov]

/-- C4 witness: the amended theorem instantiated at text "abc", chunkSize 2,
overlap 5. -/
theorem c4_split_clamps_overlap_witness :
    ((0 : Nat) < 2 ∧ (2 : Nat) ≤ 5) ∧
    (split_text_to_chunks "abc".toList 2 5 = split_text_to_chunks "abc".toList 2 (2 / 10) ∧
      ∃ chunks, split_text_to_chunks "abc".toList 2 5 = .ok chunks) :=
  ⟨⟨by decide, by decide⟩, c4_split_clamps_overlap "abc".toList 2 5 (by decide) (by decide)⟩

theorem chunkWGo_min_words (words : List (List Char)) (cs step : Nat) :
    ∀ fuel i idx c, c ∈ chunkWGo words cs step fuel i idx → 50 ≤ c.words.length := by
  intro fuel
  induction fuel with
  | zero => intro i idx c hc; simp [chunkWGo] at hc
  | succ fuel ih =>
    intro i idx c hc
    by_cases hi : i < words.length
    · by_cases hsmall : ((words.drop i).take cs).length < 50
      · rw [chunkWGo, if_pos hi, if_pos hsmall] at hc
        exact ih _ _ _ hc
      · rw [chunkWGo, if_pos hi, if_neg hsmall] at hc
        rcases List.mem_cons.mp hc with h | h
        · subst h; exact Nat.not_lt.mp hsmall
        · exact ih _ _ _ h
    · rw [chunkWGo, if_neg hi] at hc
      simp at hc

/-- C5 counterexample: the claim says a below-threshold final chunk is kept.
For the one-word text "hello" the worker chunker's only (hence final) chunk
has 1 < 50 words, and it is dropped: the returned chunk list is empty even
though the text has a word. -/
theorem c5_final_chunk_dropped :
    TextChunker.chunk_text "hello" 600 100 = .ok [] ∧ pySplit "hello" ≠ [] :=
  ⟨rfl, by decide⟩

/-- C5 amended: every chunk in the worker chunker's returned list — the final
chunk included — has at least 50 words; chunks below the 50-word threshold
are dropped with no exception for the final chunk of a source.  (The service
chunker `split_text_to_chunks` applies no minimum-length threshold at all.) -/
theorem c5_all_chunks_meet_threshold (text : String) (cs ov : Nat)
    (chunks : List WorkerChunk) (h : TextChunker.chunk_text text cs ov = .ok chunks) :
    ∀ c ∈ chunks, 50 ≤ c.words.length := by
  unfold TextChunker.chunk_text at h
  by_cases h1 : cs = ov
  · simp [h1] at h
  · rw [if_neg h1] at h
    by_cases h2 : cs < ov
    · rw [if_pos h2] at h
      simp at h
      subst h
      intro c hc
      simp at hc
    · rw [if_neg h2] at h
      simp at h
      subst h
      intro c hc
      exact chunkWGo_min_words _ _ _ _ _ _ _ hc

/-- C5 witness: the amended theorem instantiated at a 51-word text with
chunkSize 50 and overlap 10 (one kept 50-word chunk; the 11-word final
window is dropped). -/
theorem c5_all_chunks_meet_threshold_witness :
    ∃ chunks, TextChunker.chunk_text
        (String.intercalate " " (List.replicate 51 "w")) 50 10 = .ok chunks ∧
      ∀ c ∈ chunks, 50 ≤ c.words.length :=
  ⟨_, rfl, c5_all_chunks_meet_threshold _ 50 10 _ rfl⟩

theorem dedupAux_nodup (l : List String) :
    ∀ acc : List String, acc.Nodup →
      (l.foldl (fun acc t => if t ∈ acc then acc else acc ++ [t]) acc).Nodup := by
  induction l with
  | nil => intro acc h; exact h
  | cons t l ih =>
    intro acc h
    simp only [List.foldl_cons]
    by_cases ht : t ∈ acc
    · rw [if_pos ht]; exact ih acc h
    · rw [if_neg ht]
      refine ih _ ?_
      simp [List.nodup_append, h, ht]

theorem dedupAux_mem (l : List String) :
    ∀ acc x, (x ∈ l.foldl (fun acc t => if t ∈ acc then acc else acc ++ [t]) acc ↔
      x ∈ acc ∨ x ∈ l) := by
  induction l with
  | nil => intro acc x; simp
  | cons t l ih =>
    intro acc x
    simp only [List.foldl_cons]
    by_cases ht : t ∈ acc
    · rw [if_pos ht, ih]
      constructor
      · rintro (h | h)
        · exact Or.inl h
        · exact Or.inr (List.mem_cons_of_mem t h)
      · rintro (h | h)
        · exact Or.inl h
        · rcases List.mem_cons.mp h with rfl | h
          · exact Or.inl ht
          · exact Or.inr h
    · rw [if_neg ht, ih]
      simp [List.mem_append, List.mem_cons]
      tauto

theorem dedupFirst_nodup (l : List String) : (dedupFirst l).Nodup :=
  dedupAux_nodup l [] List.nodup_nil

theorem mem_dedupFirst (l : List String) (x : String) : x ∈ dedupFirst l ↔ x ∈ l := by
  rw [dedupFirst, dedupAux_mem]
  simp

theorem toBatchesGo_flatten {α : Type} (bs : Nat) (hbs : 0 < bs) :
    ∀ fuel (l : List α), l.length ≤ fuel → (toBatchesGo bs fuel l).flatten = l := by
  intro fuel
  induction fuel with
  | zero =>
    intro l hl
    have : l = [] := List.length_eq_zero.mp (by omega)
    subst this
    rfl
  | succ fuel ih =>
    intro l hl
    cases l with
    | nil => rfl
    | cons a t =>
      simp only [toBatchesGo, List.flatten_cons]
      have hlen : ((a :: t).drop bs).length ≤ fuel := by
        rw [List.length_drop]
        simp only [List.length_cons] at hl ⊢
        omega
      rw [ih ((a :: t).drop bs) hlen]
      exact List.take_append_drop bs (a :: t)

theorem toBatches_flatten {α : Type} (bs : Nat) (hbs : 0 < bs) (l : List α) :
    (toBatches bs l).flatten = l :=
  toBatchesGo_flatten bs hbs l.length l le_rfl

theorem zip_filterMap_eq_filter (lookup : String → Option (List ℚ)) :
    ∀ uniq : List String,
      ((uniq.zip (uniq.map lookup)).filterMap
        (fun p => if p.2.isNone then some p.1 else none)) =
      uniq.filter (fun t => (lookup t).isNone) := by
  intro uniq
  induction uniq with
  | nil => rfl
  | cons t rest ih =>
    simp only [List.map_cons, List.zip_cons_cons, List.filterMap_cons, List.filter_cons]
    by_cases h : (lookup t).isNone
    · simp [h]
      simpa [Option.isNone_iff_eq_none] using ih
    · simp [h]
      simpa [Option.isNone_iff_eq_none] using ih

theorem fill_spec (lookup : String → Option (List ℚ)) (backend : String → List ℚ) :
    ∀ uniq : List String,
      fill (uniq.map lookup) ((uniq.filter (fun t => (lookup t).isNone)).map backend) =
        uniq.map (fun t => (lookup t).getD (backend t)) := by
  intro uniq
  induction uniq with
  | nil => rfl
  | cons t rest ih =>
    simp only [List.map_cons, List.filter_cons]
    cases h : lookup t with
    | none => simp [h, fill, ih]
    | some v => simp [h, fill, ih]

/-- C1: for every list of texts, `get_batch_embeddings` returns one vector per
input in input order, where each text's vector is its cached vector if the
cache hits and the backend's vector otherwise — hence equal input strings
(duplicates included) receive equal vectors and the result length equals the
input length; the texts passed to the backend are exactly the distinct
not-cached texts, each exactly once; and the empty input returns the empty
list. -/
theorem c1_get_batch_embeddings (cacheGet : String → Option (List ℚ))
    (digest : List Nat → String) (backend : String → List ℚ)
    (provider model : String) (bs : Nat) (texts : List String) (hbs : 0 < bs) :
    (EmbeddingProvider.get_batch_embeddings cacheGet digest backend provider model
        bs texts).result =
      texts.map (fun t =>
        (cacheGet (hash_key digest t model (pyLower provider))).getD (backend t)) ∧
    (EmbeddingProvider.get_batch_embeddings cacheGet digest backend provider model
        bs texts).result.length = texts.length ∧
    (EmbeddingProvider.get_batch_embeddings cacheGet digest backend provider model
        bs texts).calls.flatten =
      (dedupFirst texts).filter
        (fun t => (cacheGet (hash_key digest t model (pyLower provider))).isNone) ∧
    (EmbeddingProvider.get_batch_embeddings cacheGet digest backend provider model
        bs texts).calls.flatten.Nodup ∧
    (EmbeddingProvider.get_batch_embeddings cacheGet digest backend provider model
        bs []).result = [] := by
  set lookup := fun t => cacheGet (hash_key digest t model (pyLower provider)) with hlookup
  by_cases htexts : texts = []
  · subst htexts
    refine ⟨rfl, rfl, ?_, ?_, rfl⟩
    · show (List.nil : List (List String)).flatten = (dedupFirst []).filter _
      rfl
    · show (List.nil : List (List String)).flatten.Nodup
      simp
  · have hmain : ∀ r, r = EmbeddingProvider.get_batch_embeddings cacheGet digest backend
        provider model bs texts →
        r.result = texts.map (fun t => (lookup t).getD (backend t)) ∧
        r.calls = toBatches bs ((dedupFirst texts).filter (fun t => (lookup t).isNone)) := by
      intro r hr
      rw [EmbeddingProvider.get_batch_embeddings, if_neg htexts] at hr
      simp only at hr
      have hmissing :
          ((dedupFirst texts).zip ((dedupFirst texts).map lookup)).filterMap
            (fun p => if p.2.isNone then some p.1 else none) =
          (dedupFirst texts).filter (fun t => (lookup t).isNone) :=
        zip_filterMap_eq_filter lookup (dedupFirst texts)
      rw [hr]
      constructor
      · simp only [hmissing]
        have hembs :
            ((toBatches bs ((dedupFirst texts).filter (fun t => (lookup t).isNone))).map
              (List.map backend)).flatten =
            ((dedupFirst texts).filter (fun t => (lookup t).isNone)).map backend := by
          rw [← List.map_flatten, toBatches_flatten bs hbs]
        rw [hembs, fill_spec lookup backend (dedupFirst texts), List.map_map]
        apply List.map_congr_left
        intro t ht
        have htu : t ∈ dedupFirst texts := (mem_dedupFirst texts t).mpr ht
        have hidx : (dedupFirst texts).indexOf t < (dedupFirst texts).length :=
          List.indexOf_lt_length.mpr htu
        have hidx' : (dedupFirst texts).indexOf t <
            ((dedupFirst texts).map (fun t => (lookup t).getD (backend t))).length := by
          simpa using hidx
        simp only [Function.comp_apply, List.getD_eq_getElem _ _ hidx', List.getElem_map,
          List.getElem_indexOf]
      · simp only [hmissing]
    obtain ⟨hres, hcalls⟩ := hmain _ rfl
    refine ⟨hres, by rw [hres]; simp, ?_, ?_, rfl⟩
    · rw [hcalls, toBatches_flatten bs hbs]
    · rw [hcalls, toBatches_flatten bs hbs]
      exact (dedupFirst_nodup texts).filter _

/-- C1 witness: the theorem instantiated at texts ["a", "a", "b"] with an
empty cache, a constant backend and batch size 64. -/
theorem c1_get_batch_embeddings_witness :
    (0 : Nat) < 64 ∧
    ((EmbeddingProvider.get_batch_embeddings (fun _ => none) (fun _ => "h")
        (fun _ => [1]) "local" "m" 64 ["a", "a", "b"]).result =
      (["a", "a", "b"] : List String).map (fun t =>
        ((fun _ => (none : Option (List ℚ))) (hash_key (fun _ => "h") t "m"
          (pyLower "local"))).getD ((fun _ => ([1] : List ℚ)) t)) ∧
    (EmbeddingProvider.get_batch_embeddings (fun _ => none) (fun _ => "h")
        (fun _ => [1]) "local" "m" 64 ["a", "a", "b"]).result.length =
      (["a", "a", "b"] : List String).length ∧
    (EmbeddingProvider.get_batch_embeddings (fun _ => none) (fun _ => "h")
        (fun _ => [1]) "local" "m" 64 ["a", "a", "b"]).calls.flatten =
      (dedupFirst ["a", "a", "b"]).filter
        (fun t => ((fun _ => (none : Option (List ℚ))) (hash_key (fun _ => "h") t "m"
          (pyLower "local"))).isNone) ∧
    (EmbeddingProvider.get_batch_embeddings (fun _ => none) (fun _ => "h")
        (fun _ => [1]) "local" "m" 64 ["a", "a", "b"]).calls.flatten.Nodup ∧
    (EmbeddingProvider.get_batch_embeddings (fun _ => none) (fun _ => "h")
        (fun _ => [1]) "local" "m" 64 []).result = []) :=
  ⟨by decide,
    c1_get_batch_embeddings (fun _ => none) (fun _ => "h") (fun _ => [1])
      "local" "m" 64 ["a", "a", "b"] (by decide)⟩

/-- C7 counterexample: the distinct provider/model pairs ("ab", "c") and
("a", "bc") produce byte-identical SHA-256 inputs for the same text, because
`_hash_key` concatenates the provider and model identifiers with no separator
between them; equal digest inputs give equal digests, so the two pairs share
every cache key and a vector cached under one is returned for the other. -/
theorem c7_hash_key_collision :
    hashKeyInput "x" "c" "ab" = hashKeyInput "x" "bc" "a" ∧
    (("ab", "c") : String × String) ≠ ("a", "bc") := ⟨by decide, by decide⟩

/-- C7 amended: for the same text, two provider/model pairs produce the same
cache-key digest input exactly when the byte concatenations provider+model
coincide; in particular the keys differ whenever the concatenated identifier
bytes differ, but distinct pairs sharing the concatenation collide. -/
theorem c7_hash_key_separation (p1 m1 p2 m2 t : String) :
    hashKeyInput t m1 p1 = hashKeyInput t m2 p2 ↔
      utf8Bytes p1 ++ utf8Bytes m1 = utf8Bytes p2 ++ utf8Bytes m2 := by
  constructor
  · intro h
    have h' : ((utf8Bytes p1 ++ utf8Bytes m1) ++ [0]) ++ utf8Bytes t =
        ((utf8Bytes p2 ++ utf8Bytes m2) ++ [0]) ++ utf8Bytes t := by
      simpa [hashKeyInput, ← List.append_assoc] using h
    have h'' := List.append_cancel_right h'
    exact List.append_cancel_right h''
  · intro h
    simp only [hashKeyInput, ← List.append_assoc]
    rw [h]

/-- C2 counterexample: `ChromaVectorStore.search` reports the raw Chroma
distance as the result's score; with native distance 1 the reported score is
1 and not 1 / (1 + 1). -/
theorem c2_chroma_score_is_raw_distance :
    ChromaVectorStore.search ["x"] ["d"] [1] = [⟨"x", 1, "d"⟩] ∧
    (1 : ℚ) ≠ 1 / (1 + 1) := ⟨rfl, by norm_num⟩

/-- C2 amended: for the FAISS-backed search, given the index's native hit
rows sorted by ascending non-negative distance, every returned score is
1 / (1 + distance) for that row's native distance, every score lies in
(0, 1], and the scores are non-increasing; the Chroma-backed search instead
returns the raw native distance as the score. -/
theorem c2_faiss_search_scores {α : Type} (chunks : List α) (hits : List (ℚ × Int))
    (res : List (α × ℚ))
    (hok : FAISSVectorStore.search chunks hits = .ok res)
    (hsorted : (hits.map Prod.fst).Pairwise (· ≤ ·))
    (hnonneg : ∀ d ∈ hits.map Prod.fst, 0 ≤ d) :
    (∃ ds, List.Sublist ds (hits.map Prod.fst) ∧
        res.map Prod.snd = ds.map (fun d => 1 / (1 + d))) ∧
    (∀ s ∈ res.map Prod.snd, 0 < s ∧ s ≤ 1) ∧
    (res.map Prod.snd).Pairwise (· ≥ ·) := by
  induction hits generalizing res with
  | nil =>
    rw [FAISSVectorStore.search] at hok
    injection hok with hok
    subst hok
    exact ⟨⟨[], List.Sublist.refl _, rfl⟩, by simp, by simp⟩
  | cons hit rest ih =>
    obtain ⟨d, i⟩ := hit
    simp only [List.map_cons, List.pairwise_cons] at hsorted
    have hd : (0 : ℚ) ≤ d := hnonneg d (by simp)
    have hnonneg' : ∀ x ∈ rest.map Prod.fst, (0 : ℚ) ≤ x := by
      intro x hx
      exact hnonneg x (by simp [hx])
    rw [FAISSVectorStore.search] at hok
    by_cases hguard : i < (chunks.length : Int)
    · rw [if_pos hguard] at hok
      cases hpy : pyIndex chunks i with
      | none => rw [hpy] at hok; exact absurd hok (by simp)
      | some c =>
        rw [hpy] at hok
        cases hrec : FAISSVectorStore.search chunks rest with
        | error e => rw [hrec] at hok; exact absurd hok (by simp)
        | ok rs =>
          rw [hrec] at hok
          injection hok with hok
          subst hok
          obtain ⟨⟨ds, hsub, hmap⟩, hbnd, hpair⟩ := ih rs hrec hsorted.2 hnonneg'
          refine ⟨⟨d :: ds, hsub.cons₂ d, by simp [hmap]⟩, ?_, ?_⟩
          · intro s hs
            rw [List.map_cons] at hs
            rcases List.mem_cons.mp hs with h | h
            · subst h
              constructor
              · exact one_div_pos.mpr (by linarith)
              · exact div_le_one_of_le₀ (by linarith) (by linarith)
            · exact hbnd s h
          · rw [List.map_cons, List.pairwise_cons]
            refine ⟨?_, hpair⟩
            intro s hs
            rw [hmap] at hs
            obtain ⟨d', hd', rfl⟩ := List.mem_map.mp hs
            have hdd' : d ≤ d' := hsorted.1 d' (hsub.subset hd')
            have hd'0 : (0 : ℚ) ≤ d' := hnonneg' d' (hsub.subset hd')
            exact one_div_le_one_div_of_le (by linarith) (by linarith)
    · rw [if_neg hguard] at hok
      obtain ⟨⟨ds, hsub, hmap⟩, hbnd, hpair⟩ := ih res hok hsorted.2 hnonneg'
      exact ⟨⟨ds, hsub.cons d, hmap⟩, hbnd, hpair⟩

/-- C2 witness: the amended theorem instantiated at chunks ["c1", "c2"] and
native hits [(0, 0), (3, 1)], whose search result is
[("c1", 1), ("c2", 1/4)]. -/
theorem c2_faiss_search_scores_witness :
    (FAISSVectorStore.search ["c1", "c2"] [((0 : ℚ), (0 : Int)), (3, 1)] =
        .ok [("c1", 1), ("c2", 1 / 4)] ∧
      (([((0 : ℚ), (0 : Int)), (3, 1)].map Prod.fst).Pairwise (· ≤ ·)) ∧
      (∀ d ∈ [((0 : ℚ), (0 : Int)), (3, 1)].map Prod.fst, 0 ≤ d)) ∧
    ((∃ ds, List.Sublist ds ([((0 : ℚ), (0 : Int)), (3, 1)].map Prod.fst) ∧
        ([(("c1" : String), (1 : ℚ)), ("c2", 1 / 4)].map Prod.snd) =
          ds.map (fun d => 1 / (1 + d))) ∧
      (∀ s ∈ [(("c1" : String), (1 : ℚ)), ("c2", 1 / 4)].map Prod.snd,
        0 < s ∧ s ≤ 1) ∧
      ([(("c1" : String), (1 : ℚ)), ("c2", 1 / 4)].map Prod.snd).Pairwise (· ≥ ·)) := by
  have hok : FAISSVectorStore.search ["c1", "c2"] [((0 : ℚ), (0 : Int)), (3, 1)] =
      .ok [("c1", 1), ("c2", 1 / 4)] := by
    norm_num [FAISSVectorStore.search, pyIndex]
  have hsorted : (([((0 : ℚ), (0 : Int)), (3, 1)].map Prod.fst).Pairwise (· ≤ ·)) := by
    norm_num
  have hnonneg : ∀ d ∈ [((0 : ℚ), (0 : Int)), (3, 1)].map Prod.fst, 0 ≤ d := by
    norm_num
  exact ⟨⟨hok, hsorted, hnonneg⟩,
    c2_faiss_search_scores ["c1", "c2"] _ _ hok hsorted hnonneg⟩

/-- C3: code-bug evaluation at the failing input.  The index stores exactly
one vector [0] with chunk list ["c0"]; searching with k = 2 makes FAISS pad
the native rows with label -1, the guard `idx < len(chunks)` passes for -1,
and Python's negative indexing maps chunks[-1] to the last chunk — so the
call returns 2 results (the stored chunk duplicated), not the entry count 1
claimed by the spec. -/
theorem c3_search_overquery_bug :
    ∃ rs, faissSearchPipeline [[0]] ["c0"] [0] 2 = .ok rs ∧ rs.length = 2 ∧
      rs.map Prod.fst = ["c0", "c0"] := by
  refine ⟨[("c0", 1), ("c0", 1 / (1 + fltMax))], ?_, rfl, rfl⟩
  unfold faissSearchPipeline faissNative
  norm_num [FAISSVectorStore.search, pyIndex, sortBy, insertBy, l2sq]

theorem nodup_map_fst_eq {l : List (String × Int)}
    (hn : (l.map Prod.fst).Nodup) :
    ∀ p ∈ l, ∀ q ∈ l, p.1 = q.1 → p = q := by
  induction l with
  | nil => simp
  | cons a l ih =>
    simp only [List.map_cons, List.nodup_cons] at hn
    intro p hp q hq hpq
    rcases List.mem_cons.mp hp with rfl | hp' <;> rcases List.mem_cons.mp hq with rfl | hq'
    · rfl
    · exact absurd (hpq ▸ List.mem_map_of_mem Prod.fst hq') hn.1
    · exact absurd (hpq ▸ List.mem_map_of_mem Prod.fst hp') hn.1
    · exact ih hn.2 p hp' q hq' hpq

theorem purgeGo_metas (now : Int) :
    ∀ (metas : List (String × Int)) (indexes : List String),
      (purgeGo now metas indexes).1 = metas.filter (fun p => decide (now ≤ p.2)) := by
  intro metas
  induction metas with
  | nil => intro indexes; rfl
  | cons a rest ih =>
    intro indexes
    obtain ⟨t, e⟩ := a
    by_cases h : now > e
    · simp only [purgeGo, if_pos h, ih, List.filter_cons]
      have : (decide (now ≤ e)) = false := by simp; omega
      rw [this]
      simp
    · simp only [purgeGo, if_neg h, ih, List.filter_cons]
      have : (decide (now ≤ e)) = true := by simp; omega
      rw [this]
      simp

theorem purgeGo_count (now : Int) :
    ∀ (metas : List (String × Int)) (indexes : List String),
      (purgeGo now metas indexes).2.2 =
        (metas.filter (fun p => decide (p.2 < now))).length := by
  intro metas
  induction metas with
  | nil => intro indexes; rfl
  | cons a rest ih =>
    intro indexes
    obtain ⟨t, e⟩ := a
    by_cases h : now > e
    · simp only [purgeGo, if_pos h, ih, List.filter_cons]
      have : (decide (e < now)) = true := by simp; omega
      rw [this]
      simp
    · simp only [purgeGo, if_neg h, ih, List.filter_cons]
      have : (decide (e < now)) = false := by simp; omega
      rw [this]
      simp

theorem purgeGo_indexes (now : Int) :
    ∀ (metas : List (String × Int)) (indexes : List String),
      (purgeGo now metas indexes).2.1 =
        indexes.filter
          (fun x => !(metas.any (fun p => decide (now > p.2) && decide (x = p.1)))) := by
  intro metas
  induction metas with
  | nil => intro indexes; simp [purgeGo]
  | cons a rest ih =>
    intro indexes
    obtain ⟨t, e⟩ := a
    by_cases h : now > e
    · simp only [purgeGo, if_pos h, ih, List.filter_filter]
      apply List.filter_congr
      intro x hx
      have he : (decide (now > e)) = true := by simpa using h
      simp [he, Bool.and_comm, Bool.or_comm, decide_eq_true_eq]
    · simp only [purgeGo, if_neg h, ih]
      apply List.filter_congr
      intro x hx
      have he : (decide (now > e)) = false := by simpa using h
      simp [he]

/-- C6: for every time `now`, after the purge every tenant whose metadata had
expiresAt < now has both its metadata record and its index artifact deleted,
every tenant with expiresAt ≥ now keeps its metadata record and its index
artifact, and the returned count is the number of purged tenants.  The
hypothesis says trial tokens are unique across metadata records (one sidecar
file per token). -/
theorem c6_purge_expired (now : Int) (s : TrialStore)
    (hn : (s.metas.map Prod.fst).Nodup) :
    (∀ te ∈ s.metas, te.2 < now →
       te.1 ∉ ((purge_expired_trials now s).1.metas.map Prod.fst) ∧
       te.1 ∉ (purge_expired_trials now s).1.indexes) ∧
    (∀ te ∈ s.metas, now ≤ te.2 →
       te ∈ (purge_expired_trials now s).1.metas ∧
       (te.1 ∈ s.indexes → te.1 ∈ (purge_expired_trials now s).1.indexes)) ∧
    (purge_expired_trials now s).2 =
      (s.metas.filter (fun p => decide (p.2 < now))).length := by
  have hmetas : (purge_expired_trials now s).1.metas =
      s.metas.filter (fun p => decide (now ≤ p.2)) := purgeGo_metas now s.metas s.indexes
  have hidx : (purge_expired_trials now s).1.indexes =
      s.indexes.filter
        (fun x => !(s.metas.any (fun p => decide (now > p.2) && decide (x = p.1)))) :=
    purgeGo_indexes now s.metas s.indexes
  refine ⟨?_, ?_, purgeGo_count now s.metas s.indexes⟩
  · intro te hte hlt
    constructor
    · rw [hmetas]
      intro hmem
      obtain ⟨q, hq, hq1⟩ := List.mem_map.mp hmem
      have hq' := List.mem_filter.mp hq
      have hqe : now ≤ q.2 := by simpa using hq'.2
      have : q = te := nodup_map_fst_eq hn q hq'.1 te hte hq1
      rw [this] at hqe
      omega
    · rw [hidx]
      intro hmem
      have h' := List.mem_filter.mp hmem
      have hany : s.metas.any (fun p => decide (now > p.2) && decide (te.1 = p.1)) = true :=
        List.any_eq_true.mpr ⟨te, hte, by simp; omega⟩
      rw [hany] at h'
      simpa using h'.2
  · intro te hte hge
    constructor
    · rw [hmetas]
      exact List.mem_filter.mpr ⟨hte, by simpa using hge⟩
    · intro hin
      rw [hidx]
      refine List.mem_filter.mpr ⟨hin, ?_⟩
      simp only [Bool.not_eq_true']
      rw [List.any_eq_false]
      intro p hp
      simp only [Bool.and_eq_true, decide_eq_true_eq]
      rintro ⟨hpe, hpt⟩
      have : p = te := nodup_map_fst_eq hn p hp te hte hpt.symm
      rw [this] at hpe
      omega

/-- C6 witness: the theorem instantiated at now = 10 and a store with three
tenants expiring at 5, 10 and 20, all holding an index artifact. -/
theorem c6_purge_expired_witness :
    ((([("a", (5 : Int)), ("b", 10), ("c", 20)].map Prod.fst).Nodup) ∧
      purge_expired_trials 10 ⟨[("a", 5), ("b", 10), ("c", 20)], ["a", "b", "c"]⟩ =
        (⟨[("b", 10), ("c", 20)], ["b", "c"]⟩, 1)) ∧
    ((∀ te ∈ ([("a", (5 : Int)), ("b", 10), ("c", 20)] : List (String × Int)), te.2 < 10 →
       te.1 ∉ ((purge_expired_trials 10
          ⟨[("a", 5), ("b", 10), ("c", 20)], ["a", "b", "c"]⟩).1.metas.map Prod.fst) ∧
       te.1 ∉ (purge_expired_trials 10
          ⟨[("a", 5), ("b", 10), ("c", 20)], ["a", "b", "c"]⟩).1.indexes) ∧
    (∀ te ∈ ([("a", (5 : Int)), ("b", 10), ("c", 20)] : List (String × Int)), (10 : Int) ≤ te.2 →
       te ∈ (purge_expired_trials 10
          ⟨[("a", 5), ("b", 10), ("c", 20)], ["a", "b", "c"]⟩).1.metas ∧
       (te.1 ∈ (["a", "b", "c"] : List String) →
         te.1 ∈ (purge_expired_trials 10
          ⟨[("a", 5), ("b", 10), ("c", 20)], ["a", "b", "c"]⟩).1.indexes)) ∧
    (purge_expired_trials 10 ⟨[("a", 5), ("b", 10), ("c", 20)], ["a", "b", "c"]⟩).2 =
      (([("a", (5 : Int)), ("b", 10), ("c", 20)] : List (String × Int)).filter
        (fun p => decide (p.2 < 10))).length) :=
  ⟨⟨by decide, rfl⟩,
    c6_purge_expired 10 ⟨[("a", 5), ("b", 10), ("c", 20)], ["a", "b", "c"]⟩ (by decide)⟩

theorem getLast_cons_eq_getLastD {α : Type} (a : α) (l : List α) (d : α) :
    (a :: l).getLast (List.cons_ne_nil a l) = (a :: l).getLastD d := by
  induction l generalizing a d with
  | nil => rfl
  | cons b t ih =>
    rw [List.getLast_cons (List.cons_ne_nil b t), List.getLastD_cons]
    exact ih b a

theorem mem_fetch_batch_gt (db : List Nat) (v bs : Nat) :
    ∀ x ∈ fetch_batch db (some v) bs, v < x := by
  intro x hx
  have hx' := List.mem_of_mem_take hx
  have hx'' := List.mem_filter.mp hx'
  simpa using hx''.2

theorem runnerGo_events_gt (db : List Nat) (bs : Nat) :
    ∀ fuel (v c0 : Nat), c0 ≤ v →
      ∀ ids, (RunnerEv.fetch ids ∈ runnerGo db bs fuel (some v) ∨
              RunnerEv.embed ids ∈ runnerGo db bs fuel (some v) ∨
              RunnerEv.upsert ids ∈ runnerGo db bs fuel (some v)) →
      ∀ x ∈ ids, c0 < x := by
  intro fuel
  induction fuel with
  | zero =>
    intro v c0 _ ids hmem x hx
    simp [runnerGo] at hmem
  | succ fuel ih =>
    intro v c0 hcv ids hmem x hx
    cases hfb : fetch_batch db (some v) bs with
    | nil =>
      rw [runnerGo, hfb] at hmem
      simp at hmem
    | cons b bs' =>
      rw [runnerGo, hfb] at hmem
      simp only [save_checkpoint, List.cons_append, List.nil_append, List.mem_cons] at hmem
      have hbatch : ids = b :: bs' → ∀ y ∈ ids, c0 < y := by
        rintro rfl y hy
        have := mem_fetch_batch_gt db v bs y (by rw [hfb]; exact hy)
        omega
      have hlast : c0 ≤ (b :: bs').getLastD 0 := by
        have hmem' : (b :: bs').getLastD 0 ∈ (b :: bs') := by
          rw [← getLast_cons_eq_getLastD b bs' 0]
          exact List.getLast_mem _
        have := mem_fetch_batch_gt db v bs _ (by rw [hfb]; exact hmem')
        omega
      rcases hmem with h | h | h
      · rcases h with h | h | h | h | h | h
        · exact hbatch (by injection h) x hx
        · exact absurd h (by simp)
        · exact absurd h (by simp)
        · exact absurd h (by simp)
        · exact absurd h (by simp)
        · exact ih _ c0 hlast ids (Or.inl h) x hx
      · rcases h with h | h | h | h | h | h
        · exact absurd h (by simp)
        · exact hbatch (by injection h) x hx
        · exact absurd h (by simp)
        · exact absurd h (by simp)
        · exact absurd h (by simp)
        · exact ih _ c0 hlast ids (Or.inr (Or.inl h)) x hx
      · rcases h with h | h | h | h | h | h
        · exact absurd h (by simp)
        · exact absurd h (by simp)
        · exact hbatch (by injection h) x hx
        · exact absurd h (by simp)
        · exact absurd h (by simp)
        · exact ih _ c0 hlast ids (Or.inr (Or.inr h)) x hx

theorem runnerGo_segments (db : List Nat) (bs : Nat) :
    ∀ fuel (lastId : Option Nat), ∃ batches : List (List Nat),
      runnerGo db bs fuel lastId = batches.flatMap (fun b =>
        [RunnerEv.fetch b, RunnerEv.embed b, RunnerEv.upsert b] ++
          save_checkpoint (b.getLastD 0)) ∧
      ∀ b ∈ batches, b ≠ [] := by
  intro fuel
  induction fuel with
  | zero => intro lastId; exact ⟨[], rfl, by simp⟩
  | succ fuel ih =>
    intro lastId
    cases hfb : fetch_batch db lastId bs with
    | nil =>
      refine ⟨[], ?_, by simp⟩
      rw [runnerGo, hfb]
      rfl
    | cons b bs' =>
      obtain ⟨batches, heq, hne⟩ := ih (some ((b :: bs').getLastD 0))
      refine ⟨(b :: bs') :: batches, ?_, ?_⟩
      · rw [runnerGo, hfb]
        simp only [save_checkpoint, List.flatMap_cons, List.cons_append, List.nil_append,
          List.append_assoc]
        rw [heq]
        simp [save_checkpoint]
      · intro x hx
        rcases List.mem_cons.mp hx with rfl | hx
        · simp
        · exact hne x hx

/-- C8: in the backfill runner resumed from checkpoint c0, every id that is
fetched, embedded or upserted is strictly greater than c0; and the event
trace is a concatenation of per-batch segments, each of which fetches,
embeds and upserts one non-empty batch and only then saves the checkpoint as
that batch's last id, the save being the atomic write-temp-then-rename pair
of `save_checkpoint`. -/
theorem c8_checkpoint_resume (db : List Nat) (batchSize c0 fuel : Nat) :
    (∀ ids, (RunnerEv.fetch ids ∈ runnerGo db batchSize fuel (some c0) ∨
             RunnerEv.embed ids ∈ runnerGo db batchSize fuel (some c0) ∨
             RunnerEv.upsert ids ∈ runnerGo db batchSize fuel (some c0)) →
       ∀ x ∈ ids, c0 < x) ∧
    (∃ batches : List (List Nat),
       runnerGo db batchSize fuel (some c0) = batches.flatMap (fun b =>
         [RunnerEv.fetch b, RunnerEv.embed b, RunnerEv.upsert b] ++
           save_checkpoint (b.getLastD 0)) ∧
       ∀ b ∈ batches, b ≠ []) :=
  ⟨fun ids hmem => runnerGo_events_gt db batchSize fuel c0 c0 le_rfl ids hmem,
   runnerGo_segments db batchSize fuel (some c0)⟩

/-- C9 counterexample: `WebCrawler.crawl` (python/ingest-worker.py) has no
maxPages check — the loop runs until the frontier is empty and the pipeline
never reads max_pages from the data source.  On the three-page site, a crawl
run configured with maxPages = 1 still returns 3 pages. -/
theorem c9_v1_crawl_ignores_max_pages :
    ∃ pages, WebCrawler.crawl exSite (fun _ => true) (fun _ => true) "a" 2 10 = some pages ∧
      pages.length = 3 ∧ ¬ pages.length ≤ 1 := by
  refine ⟨_, rfl, rfl, by decide⟩

theorem crawlWeight_cons_le (web : String → Option FetchedPage) (U : List String)
    (visited : List String) (url : String) :
    crawlWeight web U (url :: visited) ≤ crawlWeight web U visited := by
  induction U with
  | nil => simp [crawlWeight]
  | cons u U' ih =>
    by_cases h1 : u ∈ visited
    · have h2 : u ∈ url :: visited := List.mem_cons_of_mem url h1
      simpa [crawlWeight, List.filter_cons, h1, h2] using ih
    · by_cases h2 : u = url
      · subst h2
        have h3 : u ∈ u :: visited := List.mem_cons_self u visited
        have ih' := ih
        simp only [crawlWeight, List.filter_cons] at ih' ⊢
        simp [h1, h3] at ih' ⊢
        omega
      · have h3 : ¬ u ∈ url :: visited := by simp [List.mem_cons, h1, h2]
        have ih' := ih
        simp only [crawlWeight, List.filter_cons] at ih' ⊢
        simp [h1, h3] at ih' ⊢
        omega

theorem crawlWeight_remove (web : String → Option FetchedPage) (U : List String)
    (visited : List String) (url : String) (hU : url ∈ U) (hv : url ∉ visited) :
    crawlWeight web U (url :: visited) + (1 + (webLinks web url).length) ≤
      crawlWeight web U visited := by
  induction U with
  | nil => simp at hU
  | cons u U' ih =>
    by_cases h2 : u = url
    · subst h2
      have h3 : u ∈ u :: visited := List.mem_cons_self u visited
      have hmono := crawlWeight_cons_le web U' visited u
      simp only [crawlWeight, List.filter_cons] at hmono ⊢
      simp [hv, h3] at hmono ⊢
      omega
    · have hU' : url ∈ U' := by
        rcases List.mem_cons.mp hU with h | h
        · exact absurd h.symm h2
        · exact h
      have ih' := ih hU'
      by_cases h1 : u ∈ visited
      · have h4 : u ∈ url :: visited := List.mem_cons_of_mem url h1
        simp only [crawlWeight, List.filter_cons] at ih' ⊢
        simp [h1, h4] at ih' ⊢
        omega
      · have h4 : ¬ u ∈ url :: visited := by simp [List.mem_cons, h1, h2]
        simp only [crawlWeight, List.filter_cons] at ih' ⊢
        simp [h1, h4] at ih' ⊢
        omega

theorem crawlV2Go_isSome (web : String → Option FetchedPage) (allow : String → Bool)
    (maxD maxP : Nat) (U : List String)
    (hclosed : ∀ u ∈ U, ∀ l ∈ webLinks web u, l ∈ U) :
    ∀ fuel (frontier : List (String × Nat)) (visited : List String) (pages : List String),
      (∀ p ∈ frontier, p.1 ∈ U) →
      frontier.length + crawlWeight web U visited ≤ fuel →
      (WebsiteCrawler.crawlGo web allow maxD maxP fuel frontier visited pages).isSome := by
  intro fuel
  induction fuel with
  | zero =>
    intro frontier visited pages hfr hle
    have : frontier = [] := by
      cases frontier with
      | nil => rfl
      | cons a l => simp at hle
    subst this
    simp [WebsiteCrawler.crawlGo]
  | succ fuel ih =>
    intro frontier visited pages hfr hle
    cases frontier with
    | nil => simp [WebsiteCrawler.crawlGo]
    | cons hd rest =>
      obtain ⟨url, depth⟩ := hd
      by_cases hfull : maxP ≤ pages.length
      · simp [WebsiteCrawler.crawlGo, hfull]
      · have hrest : ∀ p ∈ rest, p.1 ∈ U := fun p hp => hfr p (List.mem_cons_of_mem _ hp)
        have hurl : url ∈ U := hfr (url, depth) (List.mem_cons_self _ _)
        simp only [WebsiteCrawler.crawlGo, if_neg hfull]
        simp only [List.length_cons] at hle
        by_cases h1 : url ∈ visited ∨ depth > maxD
        · rw [if_pos h1]
          exact ih rest visited pages hrest (by omega)
        · rw [if_neg h1]
          have hnv : url ∉ visited := fun h => h1 (Or.inl h)
          by_cases h2 : allow url
          · rw [if_neg (by simp [h2])]
            cases hw : web url with
            | none =>
              dsimp only
              have hw2 : crawlWeight web U (url :: visited) + 1 ≤
                  crawlWeight web U visited := by
                have := crawlWeight_remove web U visited url hurl hnv
                omega
              exact ih rest (url :: visited) pages hrest (by omega)
            | some f =>
              dsimp only
              have hlinks : (webLinks web url).length = f.links.length := by
                simp [webLinks, hw]
              have hw2 := crawlWeight_remove web U visited url hurl hnv
              by_cases h3 : depth < maxD
              · rw [if_pos h3]
                refine ih _ (url :: visited) _ ?_ ?_
                · intro p hp
                  rcases List.mem_append.mp hp with h | h
                  · exact hrest p h
                  · obtain ⟨l, hl, rfl⟩ := List.mem_map.mp h
                    have hl' : l ∈ webLinks web url := by
                      simp only [webLinks, hw]
                      exact (List.mem_filter.mp hl).1
                    exact hclosed url hurl l hl'
                · have hpush : ((f.links.filter (fun l => ¬ l ∈ url :: visited)).map
                      (fun l => (l, depth + 1))).length ≤ f.links.length := by
                    rw [List.length_map]
                    exact List.length_filter_le _ _
                  rw [List.length_append]
                  omega
              · rw [if_neg h3]
                exact ih rest (url :: visited) _ hrest (by omega)
          · rw [if_pos (by simp [h2])]
            exact ih rest visited pages hrest (by omega)

theorem crawlV2Go_bound (web : String → Option FetchedPage) (allow : String → Bool)
    (maxD maxP : Nat) :
    ∀ fuel (frontier : List (String × Nat)) (visited : List String) (pages : List String)
      (res : List String × List (String × Nat)),
      pages.length ≤ maxP →
      WebsiteCrawler.crawlGo web allow maxD maxP fuel frontier visited pages = some res →
      res.1.length ≤ maxP ∧ (res.2 = [] ∨ maxP ≤ res.1.length) := by
  intro fuel
  induction fuel with
  | zero =>
    intro frontier visited pages res hp heq
    cases frontier with
    | nil =>
      simp only [WebsiteCrawler.crawlGo, Option.some.injEq] at heq
      rw [← heq]
      exact ⟨hp, Or.inl rfl⟩
    | cons hd rest =>
      obtain ⟨url, depth⟩ := hd
      by_cases hfull : maxP ≤ pages.length
      · simp only [WebsiteCrawler.crawlGo, if_pos hfull, Option.some.injEq] at heq
        rw [← heq]
        exact ⟨hp, Or.inr hfull⟩
      · simp only [WebsiteCrawler.crawlGo, if_neg hfull] at heq
        exact absurd heq (by simp)
  | succ fuel ih =>
    intro frontier visited pages res hp heq
    cases frontier with
    | nil =>
      simp only [WebsiteCrawler.crawlGo, Option.some.injEq] at heq
      rw [← heq]
      exact ⟨hp, Or.inl rfl⟩
    | cons hd rest =>
      obtain ⟨url, depth⟩ := hd
      by_cases hfull : maxP ≤ pages.length
      · simp only [WebsiteCrawler.crawlGo, if_pos hfull, Option.some.injEq] at heq
        rw [← heq]
        exact ⟨hp, Or.inr hfull⟩
      · simp only [WebsiteCrawler.crawlGo, if_neg hfull] at heq
        by_cases h1 : url ∈ visited ∨ depth > maxD
        · rw [if_pos h1] at heq
          exact ih rest visited pages res hp heq
        · rw [if_neg h1] at heq
          by_cases h2 : allow url
          · rw [if_neg (by simp [h2])] at heq
            cases hw : web url with
            | none =>
              rw [hw] at heq
              dsimp only at heq
              exact ih rest (url :: visited) pages res hp heq
            | some f =>
              rw [hw] at heq
              dsimp only at heq
              have hp' : (if 100 < f.text.length then pages ++ [url] else pages).length ≤
                  maxP := by
                by_cases ht : 100 < f.text.length
                · simp [ht]; omega
                · simp [ht]; omega
              by_cases h3 : depth < maxD
              · rw [if_pos h3] at heq
                exact ih _ (url :: visited) _ res hp' heq
              · rw [if_neg h3] at heq
                exact ih rest (url :: visited) _ res hp' heq
          · rw [if_pos (by simp [h2])] at heq
            exact ih rest visited pages res hp heq

/-- C9 amended: for `WebsiteCrawler.crawl` (python/ingest_worker.py), the
crawl loop exits exactly when the frontier is empty or the number of crawled
pages has reached maxPages, so the returned page list never exceeds
maxPages; and on a site whose reachable url universe is finite and closed
under links, the loop does terminate.  The v1 `WebCrawler.crawl`
(python/ingest-worker.py) enforces no page bound: it stops only when the
frontier empties, and the pipeline never passes max_pages to it. -/
theorem c9_v2_crawl_terminal_condition (web : String → Option FetchedPage)
    (allow : String → Bool) (baseUrl : String) (maxD maxP : Nat) :
    (∀ fuel pages frontierEnd,
       WebsiteCrawler.crawl web allow baseUrl maxD maxP fuel = some (pages, frontierEnd) →
       pages.length ≤ maxP ∧ (frontierEnd = [] ∨ maxP ≤ pages.length)) ∧
    (∀ U : List String, baseUrl ∈ U →
       (∀ u ∈ U, ∀ l ∈ webLinks web u, l ∈ U) →
       ∃ fuel r, WebsiteCrawler.crawl web allow baseUrl maxD maxP fuel = some r) := by
  constructor
  · intro fuel pages frontierEnd heq
    exact crawlV2Go_bound web allow maxD maxP fuel [(baseUrl, 0)] [] [] (pages, frontierEnd)
      (by simp) heq
  · intro U hbase hclosed
    have h := crawlV2Go_isSome web allow maxD maxP U hclosed
      (1 + crawlWeight web U []) [(baseUrl, 0)] [] []
      (by
        intro p hp
        simp at hp
        subst hp
        exact hbase)
      (by simp)
    obtain ⟨r, hr⟩ := Option.isSome_iff_exists.mp h
    exact ⟨1 + crawlWeight web U [], r, hr⟩
